import Mathlib

/-!
Verification of the Othello board engine and minimax search
(`OTHELLO/othello.py`) via a shallow embedding.

Modelling conventions:
* Python board cells are the characters `'.'`, `'@'`, `'o'`, `'?'`; we model
  them as the inductive type `Cell` (empty, black, white, outer).  Players are
  the same value space, exactly as in Python.
* A board is a `List Cell` (the Python program uses a 100-element list).
  Board indices are `Int` because direction offsets are negative.
* `cell b i` models the Python read `board[i]` for `0 ≤ i < len(board)`, the
  only regime the program ever exercises on well-formed boards (theorem for
  claim C7 below proves every bracket-scan access stays inside `0..99`);
  outside that range the model returns `outer`.  Likewise `setCell` models
  in-range assignment `board[i] = c`.
* The two `while` loops (`find_bracket`'s scan and `make_move`'s flip walk)
  are modelled with an explicit fuel of 100.  In Python the scan is bounded
  by the list length; on well-formed boards it performs at most 64 steps
  (claim C7), and the flip walk retraces a scan, so fuel 100 is never
  exhausted in any reachable execution.
* `minimax` recurses on `depth : Nat`, decremented on every recursive call
  exactly as in the source; the global diagnostic counter `NODES_EXAMINED`
  is I/O-style instrumentation that does not influence the returned
  `(value, move)` pair and is not modelled.
-/

inductive Cell : Type where
  | empty : Cell
  | black : Cell
  | white : Cell
  | outer : Cell
deriving DecidableEq, Repr

open Cell

/-- Direction step `UP = -10`. -/
def UP : Int := -10
/-- Direction step `DOWN = 10`. -/
def DOWN : Int := 10
/-- Direction step `LEFT = -1`. -/
def LEFT : Int := -1
/-- Direction step `RIGHT = 1`. -/
def RIGHT : Int := 1
/-- Direction step `UP_RIGHT = -9`. -/
def UP_RIGHT : Int := -9
/-- Direction step `DOWN_RIGHT = 11`. -/
def DOWN_RIGHT : Int := 11
/-- Direction step `DOWN_LEFT = 9`. -/
def DOWN_LEFT : Int := 9
/-- Direction step `UP_LEFT = -11`. -/
def UP_LEFT : Int := -11

/-- The tuple `DIRECTIONS` from the source, in source order. -/
def DIRECTIONS : List Int :=
  [UP, UP_RIGHT, RIGHT, DOWN_RIGHT, DOWN, DOWN_LEFT, LEFT, UP_LEFT]

/-- `squares()`: the 64 playable indices `11..88` whose column digit is `1..8`. -/
def squares : List Int :=
  ((List.range' 11 78 1).map (fun n => (n : Int))).filter
    (fun i => decide (1 ≤ i % 10) && decide (i % 10 ≤ 8))

/-- Reading `board[i]`; total model of the Python indexing actually used by
the program (see module docstring). -/
def cell (board : List Cell) (i : Int) : Cell :=
  if 0 ≤ i then board.getD i.toNat Cell.outer else Cell.outer

/-- Writing `board[i] = c`; total model of the Python assignment actually
used by the program. -/
def setCell (board : List Cell) (i : Int) (c : Cell) : List Cell :=
  if 0 ≤ i then board.set i.toNat c else board

/-- `initial_board()`: 100 OUTER cells, play squares set EMPTY, then the four
centre discs `board[44], board[45] = WHITE, BLACK` and
`board[54], board[55] = BLACK, WHITE`. -/
def initial_board : List Cell :=
  let board := squares.foldl (fun b i => setCell b i Cell.empty)
    (List.replicate 100 Cell.outer)
  setCell (setCell (setCell (setCell board 44 Cell.white) 45 Cell.black)
    54 Cell.black) 55 Cell.white

/-- `opponent(player)`: `BLACK if player == WHITE else WHITE`. -/
def opponent (player : Cell) : Cell :=
  if player = Cell.white then Cell.black else Cell.white

/-- `is_valid(move)`: membership in `squares()`. -/
def is_valid (move : Int) : Bool :=
  decide (move ∈ squares)

/-- The `while board[bracket] == opponent(player): bracket += direction` scan
of `find_bracket`, with explicit fuel; returns the first index (stepping by
`direction`) whose cell is not the opponent's disc, or `none` on fuel
exhaustion (unreachable on well-formed boards, claim C7). -/
def bracketScan (board : List Cell) (opp : Cell) (direction : Int) :
    Nat → Int → Option Int
  | 0, _ => none
  | Nat.succ fuel, bracket =>
      if cell board bracket = opp then
        bracketScan board opp direction fuel (bracket + direction)
      else some bracket

/-- `find_bracket(square, player, board, direction)`. -/
def find_bracket (square : Int) (player : Cell) (board : List Cell)
    (direction : Int) : Option Int :=
  let bracket := square + direction
  if cell board bracket ≠ opponent player then none
  else
    match bracketScan board (opponent player) direction 100 bracket with
    | none => none
    | some b => if cell board b = player then some b else none

/-- `is_legal(move, player, board)`. -/
def is_legal (move : Int) (player : Cell) (board : List Cell) : Bool :=
  if !(is_valid move) || !(decide (cell board move = Cell.empty)) then false
  else DIRECTIONS.any (fun d => (find_bracket move player board d).isSome)

/-- `legal_moves(player, board)`: the legal squares in ascending index order. -/
def legal_moves (player : Cell) (board : List Cell) : List Int :=
  squares.filter (fun sq => is_legal sq player board)

/-- `any_legal_move(player, board)`. -/
def any_legal_move (player : Cell) (board : List Cell) : Bool :=
  squares.any (fun sq => is_legal sq player board)

/-- The `while sq != bracket: new_board[sq] = player; sq += d` flip walk of
`make_move`, with explicit fuel (never exhausted in reachable executions:
the walk retraces a successful bracket scan of at most 64 steps). -/
def flipRay (player : Cell) (direction : Int) :
    Nat → Int → Int → List Cell → List Cell
  | 0, _, _, b => b
  | Nat.succ fuel, sq, bracket, b =>
      if sq = bracket then b
      else flipRay player direction fuel (sq + direction) bracket
        (setCell b sq player)

/-- `make_move(move, player, board)`: pass returns an unchanged copy;
otherwise place the disc and flip every bracketed run (the bracket of each
direction is recomputed on the board updated so far, as in the source). -/
def make_move (move : Option Int) (player : Cell) (board : List Cell) :
    List Cell :=
  match move with
  | none => board
  | some mv =>
      let b := setCell board mv player
      DIRECTIONS.foldl (fun nb d =>
        match find_bracket mv player nb d with
        | none => nb
        | some bracket => flipRay player d 100 (mv + d) bracket nb) b

/-- `next_player(prev_player, board)`. -/
def next_player (prev_player : Cell) (board : List Cell) : Option Cell :=
  let opp := opponent prev_player
  if any_legal_move opp board then some opp
  else if any_legal_move prev_player board then some prev_player
  else none

/-- `score(player, board)`: fold over every cell of the board list. -/
def score (player : Cell) (board : List Cell) : Int :=
  board.foldl (fun p s =>
    if s = player then p + 1
    else if s = opponent player then p - 1
    else p) 0

/-- `terminal(board)`. -/
def terminal (board : List Cell) : Bool :=
  !(any_legal_move Cell.black board) && !(any_legal_move Cell.white board)

/-- `CORNERS`. -/
def CORNERS : List Int := [11, 18, 81, 88]
/-- `X_SQUARES`. -/
def X_SQUARES : List Int := [22, 27, 72, 77]
/-- `C_SQUARES`. -/
def C_SQUARES : List Int := [12, 17, 21, 28, 71, 78, 82, 87]

/-- The corner-control term of `evaluate`. -/
def corner_score (board : List Cell) (root_player : Cell) : Int :=
  CORNERS.foldl (fun acc c =>
    if cell board c = root_player then acc + 1
    else if cell board c = opponent root_player then acc - 1
    else acc) 0

/-- The mobility term of `evaluate`:
`len(legal_moves(root)) - len(legal_moves(opp))`. -/
def mobility (board : List Cell) (root_player : Cell) : Int :=
  ((legal_moves root_player board).length : Int)
    - ((legal_moves (opponent root_player) board).length : Int)

/-- The X-square danger term of `evaluate`. -/
def x_diff (board : List Cell) (root_player : Cell) : Int :=
  ((X_SQUARES.countP (fun x => decide (cell board x = root_player))) : Int)
    - ((X_SQUARES.countP
        (fun x => decide (cell board x = opponent root_player))) : Int)

/-- The C-square danger term of `evaluate`. -/
def c_diff (board : List Cell) (root_player : Cell) : Int :=
  ((C_SQUARES.countP (fun c => decide (cell board c = root_player))) : Int)
    - ((C_SQUARES.countP
        (fun c => decide (cell board c = opponent root_player))) : Int)

/-- `evaluate(board, root_player)`:
`25*corner + 5*mob + 1*discdiff - 4*x_diff - 2*c_diff`. -/
def evaluate (board : List Cell) (root_player : Cell) : Int :=
  25 * corner_score board root_player + 5 * mobility board root_player
    + 1 * score root_player board - 4 * x_diff board root_player
    - 2 * c_diff board root_player

/-- The value the minimax loop computes for one candidate move `mv`:
build the child board, compute the next mover, and either evaluate (move
ends the game) or consult the recursive search `recurse`. -/
def childVal (board : List Cell) (ptm : Cell) (rp : Cell)
    (recurse : List Cell → Cell → Int) (mv : Int) : Int :=
  let child := make_move (some mv) ptm board
  match next_player ptm child with
  | none => evaluate child rp
  | some nxt => recurse child nxt

/-- The best-value/best-move loop of `minimax`, abstracted over the function
`f` giving each move's value: initial best is `∓10^9` with `moves[0]` as the
initial best move, and a move replaces the current best iff its value is
strictly better or equal with a strictly smaller index. -/
def tieFold (f : Int → Int) (maximizing : Bool) (l : List Int) : Int × Int :=
  l.foldl (fun acc mv =>
    let val := f mv
    if maximizing then
      if val > acc.1 ∨ (val = acc.1 ∧ mv < acc.2) then (val, mv) else acc
    else
      if val < acc.1 ∨ (val = acc.1 ∧ mv < acc.2) then (val, mv) else acc)
    ((if maximizing then -(10 ^ 9) else (10 ^ 9 : Int)), l.headD 0)

/-- `sorted(moves, key=move_key)` where `move_key m = 0` for corners and `1`
otherwise: Python's sort is stable, so the result is exactly the corner moves
in original order followed by the non-corner moves in original order. -/
def sortCornersFirst (moves : List Int) : List Int :=
  moves.filter (fun m => decide (m ∈ CORNERS))
    ++ moves.filter (fun m => !(decide (m ∈ CORNERS)))

/-- `minimax(board, player_to_move, depth, root_player)`, returning the
`(value, move)` pair (the diagnostic node counter is not modelled). -/
def minimax (board : List Cell) (ptm : Cell) (depth : Nat) (rp : Cell) :
    Int × Option Int :=
  match depth with
  | 0 => (evaluate board rp, none)
  | Nat.succ d =>
      if terminal board then (evaluate board rp, none)
      else
        let moves := legal_moves ptm board
        if moves = [] then
          let child := make_move none ptm board
          match next_player ptm child with
          | none => (evaluate child rp, none)
          | some nxt => ((minimax child nxt d rp).1, none)
        else
          let moves2 := sortCornersFirst moves
          let r := tieFold
            (childVal board ptm rp (fun c n => (minimax c n d rp).1))
            (ptm == rp) moves2
          (r.1, some r.2)

/-- The value `minimax` attributes to playing `mv` from `(board, ptm)` when
the remaining depth for the child is `d` (i.e. the parent is at `d+1`). -/
def moveVal (board : List Cell) (ptm : Cell) (d : Nat) (rp : Cell)
    (mv : Int) : Int :=
  childVal board ptm rp (fun c n => (minimax c n d rp).1) mv

/-- The strategy used by the end-to-end test: always pick the
smallest-index legal move (head of `legal_moves`, which is ascending);
pass when there is none. -/
def first_move_strategy (player : Cell) (board : List Cell) : Option Int :=
  (legal_moves player board).head?

/-- The `while player is not None` loop of `play`, with explicit fuel (each
iteration of a real game either places a disc or is a forced pass followed
by a placement, so 100 iterations over-cover a full game); returns the final
board, or `none` on fuel exhaustion. -/
def playLoop (black_strategy white_strategy : Cell → List Cell → Option Int) :
    Nat → List Cell → Cell → Option (List Cell)
  | 0, _, _ => none
  | Nat.succ fuel, board, player =>
      let strat := fun p => if p = Cell.black then black_strategy
        else white_strategy
      let move := strat player player board
      let board2 := make_move move player board
      match next_player player board2 with
      | none => some board2
      | some p2 => playLoop black_strategy white_strategy fuel board2 p2

/-- `play(black_strategy, white_strategy)` (board-engine part: initial board,
BLACK to move, loop to completion), returning the final board. -/
def play (black_strategy white_strategy : Cell → List Cell → Option Int) :
    Option (List Cell) :=
  playLoop black_strategy white_strategy 100 initial_board Cell.black

/-- Count of discs of colour `c` over the 64 play squares. -/
def discCount (c : Cell) (board : List Cell) : Nat :=
  squares.countP (fun sq => decide (cell board sq = c))

/-- Well-formed board per the data model: 100 cells, play squares hold
EMPTY/BLACK/WHITE, all other cells hold OUTER. -/
def WF (b : List Cell) : Prop :=
  b.length = 100 ∧ ∀ i : Nat, i < 100 →
    (if is_valid (i : Int) then
        (cell b i = Cell.empty ∨ cell b i = Cell.black ∨ cell b i = Cell.white)
      else cell b i = Cell.outer)

instance : Decidable (WF b) := by
  unfold WF; infer_instance

/-! ### Basic facts about players and cell access -/

theorem opponent_black_or_white (p : Cell) :
    opponent p = Cell.black ∨ opponent p = Cell.white := by
  unfold opponent; split <;> simp

theorem opponent_ne (p : Cell) : opponent p ≠ p := by
  unfold opponent
  split_ifs with h
  · rw [h]; decide
  · exact fun e => h e.symm

theorem opponent_opponent {p : Cell}
    (hp : p = Cell.black ∨ p = Cell.white) : opponent (opponent p) = p := by
  rcases hp with h | h <;> subst h <;> rfl

theorem cell_ne_outer_bounds {b : List Cell} {i : Int}
    (h : cell b i ≠ Cell.outer) : 0 ≤ i ∧ i.toNat < b.length := by
  unfold cell at h
  split_ifs at h with h0
  · refine ⟨h0, ?_⟩
    by_contra hlen
    push_neg at hlen
    rw [List.getD_eq_getElem?_getD, List.getElem?_eq_none (by omega)] at h
    simp at h
  · simp at h

theorem cell_setCell_self {b : List Cell} {i : Int} {c : Cell}
    (h0 : 0 ≤ i) (hl : i.toNat < b.length) :
    cell (setCell b i c) i = c := by
  unfold cell setCell
  rw [if_pos h0, if_pos h0, List.getD_eq_getElem?_getD,
    List.getElem?_set_self (by simpa using hl)]
  rfl

theorem cell_setCell_ne {b : List Cell} {i : Int} (j : Int) {c : Cell}
    (hne : j ≠ i) : cell (setCell b i c) j = cell b j := by
  unfold cell setCell
  by_cases hi : 0 ≤ i
  · rw [if_pos hi]
    by_cases hj : 0 ≤ j
    · rw [if_pos hj, if_pos hj, List.getD_eq_getElem?_getD,
        List.getD_eq_getElem?_getD, List.getElem?_set_ne]
      intro hij
      exact hne (by omega)
    · rw [if_neg hj, if_neg hj]
  · rw [if_neg hi]

/-! ### Claim C1: BLACK's legal moves on the initial board -/

/-- C1 (counterexample): on the board returned by `initial_board`, the legal
moves of BLACK are NOT the claimed set `{35, 46, 53, 64}`: square 35 is not
even legal for BLACK there. -/
theorem legal_moves_initial_black_not_claimed :
    35 ∉ legal_moves Cell.black initial_board ∧
    legal_moves Cell.black initial_board ≠ [35, 46, 53, 64] := by
  decide

/-- C1 (amended): on the board returned by `initial_board`, the set of legal
moves for BLACK as computed by `legal_moves` is exactly the four squares at
row-column coordinates (3,4),(4,3),(5,6),(6,5), i.e. flat indices
`[34, 43, 56, 65]` (in ascending order). -/
theorem legal_moves_initial_black :
    legal_moves Cell.black initial_board = [34, 43, 56, 65] := by
  decide

/-! ### Claim C4: `next_player` returns none iff `terminal` -/

/-- C4: for every board and every player `P` (BLACK or WHITE),
`next_player P board` returns `none` if and only if `terminal board` is
true; i.e. the game ends exactly when neither colour has a legal move,
regardless of which player just moved. -/
theorem next_player_none_iff_terminal (board : List Cell) (P : Cell)
    (hP : P = Cell.black ∨ P = Cell.white) :
    next_player P board = none ↔ terminal board = true := by
  rcases hP with h | h <;> subst h <;>
    · simp only [next_player, terminal, opponent, reduceIte]
      split_ifs with h1 h2 <;> simp_all

/-- C4 witness: the equivalence applied on the initial board with BLACK as
the previous mover. -/
theorem next_player_none_iff_terminal_witness :
    (next_player Cell.black initial_board = none ↔
      terminal initial_board = true) :=
  next_player_none_iff_terminal initial_board Cell.black (Or.inl rfl)

/-! ### Claim C3: antisymmetry of `evaluate` -/

theorem foldl_plus_minus {β : Type} (f : β → Cell) (a b : Cell) (hab : a ≠ b)
    (l : List β) : ∀ acc : Int,
    l.foldl (fun acc c =>
        if f c = a then acc + 1 else if f c = b then acc - 1 else acc) acc
      = acc + ((l.countP fun c => decide (f c = a)) : Int)
          - ((l.countP fun c => decide (f c = b)) : Int) := by
  induction l with
  | nil => intro acc; simp
  | cons x t ih =>
      intro acc
      simp only [List.foldl_cons, List.countP_cons]
      by_cases hx : f x = a
      · have hxb : ¬(f x = b) := by rw [hx]; exact hab
        rw [if_pos hx, ih (acc + 1)]
        simp [hx, hxb, hab]
        ring
      · by_cases hx2 : f x = b
        · rw [if_neg hx, if_pos hx2, ih (acc - 1)]
          simp [hx, hx2, Ne.symm hab]
          ring
        · rw [if_neg hx, if_neg hx2, ih acc]
          simp [hx, hx2]

theorem score_eq_counts (P : Cell) (board : List Cell) :
    score P board = ((board.countP fun s => decide (s = P)) : Int)
      - ((board.countP fun s => decide (s = opponent P)) : Int) := by
  have h := foldl_plus_minus (fun s : Cell => s) P (opponent P)
    (Ne.symm (opponent_ne P)) board 0
  simpa [score] using h

theorem corner_score_eq_counts (board : List Cell) (rp : Cell) :
    corner_score board rp
      = ((CORNERS.countP fun c => decide (cell board c = rp)) : Int)
        - ((CORNERS.countP fun c => decide (cell board c = opponent rp)) : Int)
    := by
  have h := foldl_plus_minus (fun c : Int => cell board c) rp (opponent rp)
    (Ne.symm (opponent_ne rp)) CORNERS 0
  simpa [corner_score] using h

/-- C3: on every well-formed board and for each player `P`, `evaluate` is
antisymmetric under swapping the root perspective, and each of the five
weighted terms (corner control, mobility, disc differential, X-square
difference, C-square difference) individually negates under the swap. -/
theorem evaluate_antisymmetric (board : List Cell) (P : Cell)
    (hWF : WF board) (hP : P = Cell.black ∨ P = Cell.white) :
    evaluate board P = -evaluate board (opponent P) ∧
    corner_score board P = -corner_score board (opponent P) ∧
    mobility board P = -mobility board (opponent P) ∧
    score P board = -score (opponent P) board ∧
    x_diff board P = -x_diff board (opponent P) ∧
    c_diff board P = -c_diff board (opponent P) := by
  have hoo : opponent (opponent P) = P := opponent_opponent hP
  have hcs : corner_score board P = -corner_score board (opponent P) := by
    rw [corner_score_eq_counts, corner_score_eq_counts, hoo]; ring
  have hmob : mobility board P = -mobility board (opponent P) := by
    unfold mobility; rw [hoo]; ring
  have hsc : score P board = -score (opponent P) board := by
    rw [score_eq_counts, score_eq_counts, hoo]; ring
  have hx : x_diff board P = -x_diff board (opponent P) := by
    unfold x_diff; rw [hoo]; ring
  have hc : c_diff board P = -c_diff board (opponent P) := by
    unfold c_diff; rw [hoo]; ring
  refine ⟨?_, hcs, hmob, hsc, hx, hc⟩
  unfold evaluate
  rw [hcs, hmob, hsc, hx, hc]
  ring

/-- C3 witness: the antisymmetry applied on the initial board for BLACK. -/
theorem evaluate_antisymmetric_witness :
    evaluate initial_board Cell.black
      = -evaluate initial_board (opponent Cell.black) :=
  (evaluate_antisymmetric initial_board Cell.black (by decide)
    (Or.inl rfl)).1

/-! ### Claim C9: `score` equals the play-square disc differential -/

theorem map_getD_range (b : List Cell) :
    (List.range b.length).map (fun i => b.getD i Cell.outer) = b := by
  induction b with
  | nil => simp
  | cons x t ih =>
      rw [List.length_cons, List.range_succ_eq_map, List.map_cons,
        List.map_map]
      refine congrArg₂ List.cons rfl ?_
      calc List.map ((fun i => (x :: t).getD i Cell.outer) ∘ Nat.succ)
            (List.range t.length)
          = List.map (fun i => t.getD i Cell.outer) (List.range t.length) :=
            List.map_congr_left fun a _ => rfl
        _ = t := ih

theorem countP_split {α : Type} (l : List α) (q r : α → Bool) :
    l.countP q = (l.filter r).countP q
      + l.countP (fun x => q x && !r x) := by
  induction l with
  | nil => simp
  | cons x t ih =>
      by_cases hr : r x <;> by_cases hq : q x <;>
        simp [List.countP_cons, List.filter_cons, hr, hq, ih] <;> omega

theorem cell_natCast (b : List Cell) (n : Nat) :
    cell b (n : Int) = b.getD n Cell.outer := by
  unfold cell
  rw [if_pos (Int.natCast_nonneg n)]
  simp

theorem squares_eq_filter_range :
    squares = ((List.range 100).filter
        (fun i : Nat => is_valid (i : Int))).map
      (fun n : Nat => (n : Int)) := by
  decide

theorem countP_eq_discCount (board : List Cell) (c : Cell) (hWF : WF board)
    (hc : c = Cell.black ∨ c = Cell.white) :
    board.countP (fun s => decide (s = c)) = discCount c board := by
  obtain ⟨hlen, hcells⟩ := hWF
  conv_lhs => rw [← map_getD_range board]
  rw [List.countP_map, hlen,
    countP_split (List.range 100) _ (fun i => is_valid (i : Int))]
  have hzero : (List.range 100).countP
      (fun x => ((fun s => decide (s = c)) ∘
        (fun i => board.getD i Cell.outer)) x && !(is_valid (x : Int)))
      = 0 := by
    rw [List.countP_eq_zero]
    intro a ha
    simp only [List.mem_range] at ha
    simp only [Function.comp_apply, Bool.and_eq_true, Bool.not_eq_true',
      decide_eq_true_eq, not_and]
    intro h1 h2
    have hcell := hcells a ha
    rw [if_neg (by simp [h2])] at hcell
    rw [cell_natCast] at hcell
    rw [hcell] at h1
    rcases hc with h | h <;> subst h <;> exact absurd h1 (by decide)
  rw [hzero, Nat.add_zero]
  unfold discCount
  rw [squares_eq_filter_range, List.countP_map]
  refine List.countP_congr fun n _ => ?_
  simp [Function.comp_apply, cell_natCast]

/-- C9: on every well-formed board (non-play cells OUTER) and for every
player `P`, `score P board` equals the count of `P`'s discs over the 64 play
squares minus the count of `opponent P`'s discs over the 64 play squares,
even though the implementation folds over all 100 cells of the list. -/
theorem score_eq_play_square_differential (board : List Cell) (P : Cell)
    (hWF : WF board) (hP : P = Cell.black ∨ P = Cell.white) :
    score P board
      = (discCount P board : Int) - (discCount (opponent P) board : Int) := by
  rw [score_eq_counts, countP_eq_discCount board P hWF hP,
    countP_eq_discCount board (opponent P) hWF (opponent_black_or_white P)]

/-- C9 witness: the disc-differential identity applied on the initial board
for BLACK. -/
theorem score_eq_play_square_differential_witness :
    score Cell.black initial_board
      = (discCount Cell.black initial_board : Int)
        - (discCount Cell.white initial_board : Int) := by
  have h := score_eq_play_square_differential initial_board Cell.black
    (by decide) (Or.inl rfl)
  simpa [opponent] using h

/-! ### Claim C7: sentinel safety of the bracket scan -/

/-- The bracket scan instrumented with the list of indices it reads: the
first component collects every index at which `cell` is consulted (the run
of opponent cells followed by the terminating cell), the second component is
the scan result.  `find_bracket` reads exactly these indices: its initial
guard reads `square + direction`, the head of the visited list, and its
final comparison re-reads the returned index, the last element. -/
def bracketScanVisited (board : List Cell) (opp : Cell) (direction : Int) :
    Nat → Int → List Int × Option Int
  | 0, _ => ([], none)
  | Nat.succ fuel, bracket =>
      if cell board bracket = opp then
        let r := bracketScanVisited board opp direction fuel
          (bracket + direction)
        (bracket :: r.1, r.2)
      else ([bracket], some bracket)

theorem bracketScanVisited_snd (board : List Cell) (opp : Cell)
    (direction : Int) : ∀ (fuel : Nat) (br : Int),
    (bracketScanVisited board opp direction fuel br).2
      = bracketScan board opp direction fuel br := by
  intro fuel
  induction fuel with
  | zero => intro br; rfl
  | succ f ih =>
      intro br
      by_cases hc : cell board br = opp <;>
        simp [bracketScanVisited, bracketScan, hc, ih]

theorem mem_squares_bounds : ∀ i ∈ squares, 11 ≤ i ∧ i ≤ 88 := by decide

theorem squares_step :
    ∀ i ∈ squares, ∀ d ∈ DIRECTIONS, 0 ≤ i + d ∧ i + d ≤ 99 := by decide

theorem dir_ne_zero : ∀ d ∈ DIRECTIONS, d ≠ 0 := by decide

theorem dir_bounds : ∀ d ∈ DIRECTIONS, -11 ≤ d ∧ d ≤ 11 := by decide

theorem cell_not_outer_mem_squares {b : List Cell} (hWF : WF b) {i : Int}
    (h : cell b i ≠ Cell.outer) : i ∈ squares := by
  obtain ⟨h0, hlt⟩ := cell_ne_outer_bounds h
  obtain ⟨hlen, hcells⟩ := hWF
  have h100 : i.toNat < 100 := by omega
  have hcase := hcells i.toNat h100
  have hi : ((i.toNat : Nat) : Int) = i := by omega
  by_cases hv : is_valid ((i.toNat : Nat) : Int) = true
  · unfold is_valid at hv
    rw [hi] at hv
    exact of_decide_eq_true hv
  · rw [if_neg hv, cell_natCast] at hcase
    refine absurd ?_ h
    unfold cell
    rw [if_pos h0]
    exact hcase

theorem bracketScanVisited_safe {board : List Cell} (hWF : WF board)
    {o : Cell} (ho : o = Cell.black ∨ o = Cell.white) {d : Int}
    (hd : d ∈ DIRECTIONS) :
    ∀ (fuel : Nat) (br : Int), 0 ≤ br → br ≤ 99 →
      (if 0 < d then (99 - br).toNat else br.toNat) < fuel →
      (∀ i ∈ (bracketScanVisited board o d fuel br).1, 0 ≤ i ∧ i ≤ 99) ∧
      (bracketScanVisited board o d fuel br).2.isSome = true := by
  intro fuel
  induction fuel with
  | zero => intro br _ _ hm; exact absurd hm (Nat.not_lt_zero _)
  | succ f ih =>
      intro br h0 h99 hm
      by_cases hc : cell board br = o
      · have hnotouter : cell board br ≠ Cell.outer := by
          rw [hc]; rcases ho with h | h <;> subst h <;> decide
        have hmem : br ∈ squares := cell_not_outer_mem_squares hWF hnotouter
        have hb := mem_squares_bounds br hmem
        have hstep := squares_step br hmem d hd
        have hdb := dir_bounds d hd
        have hdz := dir_ne_zero d hd
        have hm' : (if 0 < d then (99 - (br + d)).toNat
            else (br + d).toNat) < f := by
          by_cases hdpos : 0 < d
          · rw [if_pos hdpos] at hm ⊢; omega
          · rw [if_neg hdpos] at hm ⊢; omega
        obtain ⟨ihv, ihs⟩ := ih (br + d) hstep.1 hstep.2 hm'
        constructor
        · intro i hi
          simp only [bracketScanVisited, if_pos hc, List.mem_cons] at hi
          rcases hi with rfl | hi'
          · exact ⟨h0, h99⟩
          · exact ihv i hi'
        · simp only [bracketScanVisited, if_pos hc]
          exact ihs
      · constructor
        · intro i hi
          simp only [bracketScanVisited, if_neg hc, List.mem_singleton] at hi
          subst hi
          exact ⟨h0, h99⟩
        · simp only [bracketScanVisited, if_neg hc]
          rfl

/-- C7: on every board satisfying the sentinel invariant, for every player,
every play-square index and every direction offset, the scan of
`find_bracket` only reads board indices in `0..99` (the guard index
`square + direction` is the head of the visited list and the returned index
its last element) and terminates within its fuel: the run of opponent discs
consists of play squares only, so the walk stops no later than the first
sentinel cell it meets, which matches neither player's disc. -/
theorem find_bracket_scan_safe (board : List Cell) (player : Cell)
    (square : Int) (direction : Int) (hWF : WF board)
    (hsq : square ∈ squares) (hd : direction ∈ DIRECTIONS) :
    (0 ≤ square + direction ∧ square + direction ≤ 99) ∧
    (∀ i ∈ (bracketScanVisited board (opponent player) direction 100
        (square + direction)).1, 0 ≤ i ∧ i ≤ 99) ∧
    (bracketScan board (opponent player) direction 100
        (square + direction)).isSome = true := by
  have hstep := squares_step square hsq direction hd
  have hmeas : (if 0 < direction then (99 - (square + direction)).toNat
      else (square + direction).toNat) < 100 := by
    by_cases hdpos : 0 < direction
    · rw [if_pos hdpos]; omega
    · rw [if_neg hdpos]; omega
  have key := bracketScanVisited_safe hWF (opponent_black_or_white player)
    hd 100 (square + direction) hstep.1 hstep.2 hmeas
  refine ⟨hstep, key.1, ?_⟩
  rw [← bracketScanVisited_snd]
  exact key.2

/-- C7 witness: the safety statement applied on the initial board for BLACK
at square 34 scanning DOWN. -/
theorem find_bracket_scan_safe_witness :
    (0 ≤ (34 : Int) + DOWN ∧ (34 : Int) + DOWN ≤ 99) ∧
    (∀ i ∈ (bracketScanVisited initial_board (opponent Cell.black) DOWN 100
        ((34 : Int) + DOWN)).1, 0 ≤ i ∧ i ≤ 99) ∧
    (bracketScan initial_board (opponent Cell.black) DOWN 100
        ((34 : Int) + DOWN)).isSome = true :=
  find_bracket_scan_safe initial_board Cell.black 34 DOWN (by decide)
    (by decide) (by decide)

/-! ### Flip analysis of `make_move` (claims C5 and C6) -/

/-- Relation between a board and the result of some flip writes for
`player`: every cell is unchanged, or held an opponent disc and now holds a
`player` disc. -/
def Flips (player : Cell) (b b2 : List Cell) : Prop :=
  ∀ i : Int, cell b2 i = cell b i ∨
    (cell b i = opponent player ∧ cell b2 i = player)

theorem flips_refl (player : Cell) (b : List Cell) : Flips player b b :=
  fun _ => Or.inl rfl

theorem flips_trans {player : Cell} {a b c : List Cell}
    (h1 : Flips player a b) (h2 : Flips player b c) : Flips player a c := by
  intro i
  rcases h2 i with hcb | ⟨hbo, hcp⟩
  · rcases h1 i with hba | ⟨hao, hbp⟩
    · exact Or.inl (hcb.trans hba)
    · exact Or.inr ⟨hao, hcb.trans hbp⟩
  · rcases h1 i with hba | ⟨hao, hbp⟩
    · exact Or.inr ⟨hba.symm.trans hbo, hcp⟩
    · exact Or.inr ⟨hao, hcp⟩

theorem opponent_ne_outer (player : Cell) : opponent player ≠ Cell.outer := by
  rcases opponent_black_or_white player with h | h <;> rw [h] <;> decide

theorem flips_setCell {player : Cell} {b : List Cell} {sq : Int}
    (hsq : cell b sq = opponent player) :
    Flips player b (setCell b sq player) := by
  intro i
  by_cases hi : i = sq
  · subst hi
    have hne : cell b i ≠ Cell.outer := by
      rw [hsq]; exact opponent_ne_outer player
    obtain ⟨h0, hlt⟩ := cell_ne_outer_bounds hne
    exact Or.inr ⟨hsq, cell_setCell_self h0 hlt⟩
  · exact Or.inl (cell_setCell_ne i hi)

theorem flipRay_flips {player : Cell} {d : Int} (hd : d ≠ 0) :
    ∀ (k : Nat) (fuel : Nat) (sq : Int) (b : List Cell),
      (∀ j : Nat, j < k → cell b (sq + (j : Int) * d) = opponent player) →
      Flips player b (flipRay player d fuel sq (sq + (k : Int) * d) b) := by
  intro k
  induction k with
  | zero =>
      intro fuel sq b _
      cases fuel with
      | zero => exact flips_refl player b
      | succ f =>
          simp only [flipRay]
          rw [if_pos (by push_cast; ring)]
          exact flips_refl player b
  | succ k ih =>
      intro fuel sq b hcells
      cases fuel with
      | zero => exact flips_refl player b
      | succ f =>
          have hne : sq ≠ sq + ((k : Nat) + 1 : Int) * d := by
            intro he
            have hzero : ((k : Int) + 1) * d = 0 := by omega
            rcases mul_eq_zero.mp hzero with h | h
            · omega
            · exact hd h
          have h0 : cell b sq = opponent player := by
            have := hcells 0 k.succ_pos
            simpa using this
          have hstep : Flips player b (setCell b sq player) :=
            flips_setCell h0
          simp only [flipRay]
          rw [if_neg (by push_cast at hne ⊢; exact hne)]
          have harg : sq + ((Nat.succ k : Nat) : Int) * d
              = (sq + d) + (k : Int) * d := by push_cast; ring
          rw [harg]
          refine flips_trans hstep (ih f (sq + d) (setCell b sq player) ?_)
          intro j hj
          have hiarg : (sq + d) + (j : Int) * d
              = sq + ((j + 1 : Nat) : Int) * d := by push_cast; ring
          rw [hiarg]
          have hnz : sq + ((j + 1 : Nat) : Int) * d ≠ sq := by
            intro he
            have hzero : ((j : Int) + 1) * d = 0 := by push_cast at he ⊢; omega
            rcases mul_eq_zero.mp hzero with h | h
            · omega
            · exact hd h
          rw [cell_setCell_ne _ hnz]
          exact hcells (j + 1) (by omega)

theorem bracketScan_sound {board : List Cell} {o : Cell} {d : Int} :
    ∀ (fuel : Nat) (st br : Int),
      bracketScan board o d fuel st = some br →
      ∃ k : Nat, k < fuel ∧ br = st + (k : Int) * d ∧
        (∀ j : Nat, j < k → cell board (st + (j : Int) * d) = o) ∧
        cell board br ≠ o := by
  intro fuel
  induction fuel with
  | zero => intro st br h; exact absurd h (by simp [bracketScan])
  | succ f ih =>
      intro st br h
      by_cases hc : cell board st = o
      · rw [show bracketScan board o d (f + 1) st
            = bracketScan board o d f (st + d) from by
          simp [bracketScan, hc]] at h
        obtain ⟨k, hk, hbr, hcells, hend⟩ := ih (st + d) br h
        refine ⟨k + 1, by omega, ?_, ?_, hend⟩
        · rw [hbr]; push_cast; ring
        · intro j hj
          cases j with
          | zero => simpa using hc
          | succ j' =>
              have hiarg : st + ((j' + 1 : Nat) : Int) * d
                  = (st + d) + (j' : Int) * d := by push_cast; ring
              rw [hiarg]
              exact hcells j' (by omega)
      · have hbr : st = br := by
          simpa [bracketScan, hc] using h
        subst hbr
        exact ⟨0, by omega, by simp, by omega, hc⟩

theorem find_bracket_flips {board : List Cell} {player : Cell} {mv d br : Int}
    (h : find_bracket mv player board d = some br) :
    ∃ k : Nat, br = (mv + d) + (k : Int) * d ∧
      (∀ j : Nat, j < k →
        cell board ((mv + d) + (j : Int) * d) = opponent player) := by
  unfold find_bracket at h
  by_cases hg : cell board (mv + d) ≠ opponent player
  · rw [if_pos hg] at h; exact absurd h (by simp)
  · rw [if_neg hg] at h
    cases hscan : bracketScan board (opponent player) d 100 (mv + d) with
    | none => rw [hscan] at h; exact absurd h (by simp)
    | some b2 =>
        rw [hscan] at h
        have h2 : (if cell board b2 = player then some b2 else none)
            = some br := h
        by_cases hp : cell board b2 = player
        · rw [if_pos hp] at h2
          have hb2 : b2 = br := by simpa using h2
          obtain ⟨k, _, hbr, hcells, _⟩ :=
            bracketScan_sound 100 (mv + d) b2 hscan
          exact ⟨k, by rw [← hb2]; exact hbr, hcells⟩
        · rw [if_neg hp] at h2; exact absurd h2 (by simp)

theorem make_move_fold_flips (player : Cell) (mv : Int) :
    ∀ (dirs : List Int), (∀ d ∈ dirs, d ≠ 0) → ∀ b : List Cell,
      Flips player b (dirs.foldl (fun nb d =>
        match find_bracket mv player nb d with
        | none => nb
        | some bracket => flipRay player d 100 (mv + d) bracket nb) b) := by
  intro dirs
  induction dirs with
  | nil => intro _ b; exact flips_refl player b
  | cons d rest ih =>
      intro hd b
      rw [List.foldl_cons]
      refine flips_trans (b := (match find_bracket mv player b d with
        | none => b
        | some bracket => flipRay player d 100 (mv + d) bracket b)) ?_
        (ih (fun x hx => hd x (List.mem_cons_of_mem d hx)) _)
      cases hfb : find_bracket mv player b d with
      | none => exact flips_refl player b
      | some bracket =>
          obtain ⟨k, hbr, hcells⟩ := find_bracket_flips hfb
          simp only
          rw [hbr]
          exact flipRay_flips (hd d (List.mem_cons_self d rest)) k 100
            (mv + d) b hcells

theorem make_move_some_flips (player : Cell) (mv : Int) (b : List Cell) :
    Flips player (setCell b mv player) (make_move (some mv) player b) := by
  unfold make_move
  exact make_move_fold_flips player mv DIRECTIONS (by decide)
    (setCell b mv player)

theorem setCell_length (b : List Cell) (i : Int) (c : Cell) :
    (setCell b i c).length = b.length := by
  unfold setCell
  split_ifs <;> simp

theorem flipRay_length (player : Cell) (d : Int) :
    ∀ (fuel : Nat) (sq br : Int) (b : List Cell),
      (flipRay player d fuel sq br b).length = b.length := by
  intro fuel
  induction fuel with
  | zero => intro sq br b; rfl
  | succ f ih =>
      intro sq br b
      simp only [flipRay]
      split_ifs
      · rfl
      · rw [ih, setCell_length]

theorem make_move_length (m : Option Int) (player : Cell) (b : List Cell) :
    (make_move m player b).length = b.length := by
  cases m with
  | none => rfl
  | some mv =>
      unfold make_move
      have : ∀ (dirs : List Int) (b0 : List Cell),
          (dirs.foldl (fun nb d =>
            match find_bracket mv player nb d with
            | none => nb
            | some bracket => flipRay player d 100 (mv + d) bracket nb)
            b0).length = b0.length := by
        intro dirs
        induction dirs with
        | nil => intro b0; rfl
        | cons d rest ih =>
            intro b0
            rw [List.foldl_cons, ih]
            cases hfb : find_bracket mv player b0 d with
            | none => rfl
            | some bracket =>
                exact flipRay_length player d 100 (mv + d) bracket b0
      rw [this DIRECTIONS (setCell b mv player), setCell_length]


theorem countP_add_disjoint {α : Type} (p q : α → Bool) :
    ∀ l : List α, (∀ x ∈ l, ¬(p x = true ∧ q x = true)) →
      l.countP p + l.countP q = l.countP (fun x => p x || q x) := by
  intro l
  induction l with
  | nil => intro _; simp
  | cons x t ih =>
      intro hx
      have ht := ih (fun y hy => hx y (List.mem_cons_of_mem x hy))
      cases hpb : p x
      · cases hqb : q x
        · simp only [List.countP_cons, hpb, hqb, Bool.or_self]
          simp only [Bool.false_eq_true, if_false]
          omega
        · simp only [List.countP_cons, hpb, hqb, Bool.false_or]
          simp only [Bool.false_eq_true, if_false, if_true]
          omega
      · cases hqb : q x
        · simp only [List.countP_cons, hpb, hqb, Bool.or_false]
          simp only [Bool.false_eq_true, if_false, if_true]
          omega
        · exact absurd ⟨hpb, hqb⟩ (hx x (List.mem_cons_self x t))

theorem flips_discCounts {player : Cell}
    (hp : player = Cell.black ∨ player = Cell.white)
    {b b2 : List Cell} (hF : Flips player b b2) :
    discCount player b ≤ discCount player b2 ∧
    discCount (opponent player) b2 ≤ discCount (opponent player) b ∧
    discCount player b2 + discCount (opponent player) b2
      = discCount player b + discCount (opponent player) b := by
  have hne : player ≠ opponent player := Ne.symm (opponent_ne player)
  refine ⟨?_, ?_, ?_⟩
  · unfold discCount
    apply List.countP_mono_left
    intro x _ hx
    simp only [decide_eq_true_eq] at hx ⊢
    rcases hF x with h | ⟨_, h2⟩
    · exact h.trans hx
    · exact h2
  · unfold discCount
    apply List.countP_mono_left
    intro x _ hx
    simp only [decide_eq_true_eq] at hx ⊢
    rcases hF x with h | ⟨h1, h2⟩
    · exact h.symm.trans hx
    · exact absurd (h2.symm.trans hx) hne
  · unfold discCount
    rw [countP_add_disjoint _ _ squares (fun x _ hand => by
      have h1 := of_decide_eq_true hand.1
      have h2 := of_decide_eq_true hand.2
      exact hne (h1.symm.trans h2))]
    rw [countP_add_disjoint _ _ squares (fun x _ hand => by
      have h1 := of_decide_eq_true hand.1
      have h2 := of_decide_eq_true hand.2
      exact hne (h1.symm.trans h2))]
    refine List.countP_congr (fun x _ => ?_)
    simp only [Bool.or_eq_true, decide_eq_true_eq]
    rcases hF x with h | ⟨h1, h2⟩
    · rw [h]
    · constructor
      · intro _; exact Or.inr h1
      · intro _; exact Or.inl h2

theorem countP_update {α : Type} (p q : α → Bool) :
    ∀ (l : List α) (a : α), l.Nodup → a ∈ l →
      (∀ x ∈ l, x ≠ a → p x = q x) →
      l.countP p + (if q a then 1 else 0)
        = l.countP q + (if p a then 1 else 0) := by
  intro l
  induction l with
  | nil => intro a _ ha _; cases ha
  | cons x t ih =>
      intro a hnd ha h
      have hxnott : x ∉ t := (List.nodup_cons.mp hnd).1
      have hndt : t.Nodup := (List.nodup_cons.mp hnd).2
      rcases List.mem_cons.mp ha with rfl | hat
      · have hpq : t.countP p = t.countP q := by
          refine List.countP_congr (fun y hy => ?_)
          have hya : y ≠ a := fun e => hxnott (e ▸ hy)
          rw [h y (List.mem_cons_of_mem a hy) hya]
        rw [List.countP_cons, List.countP_cons, hpq]
        by_cases hp : p a = true <;> by_cases hq : q a = true <;>
          simp [hp, hq] <;> omega
      · have hxa : x ≠ a := fun e => hxnott (e ▸ hat)
        have hpx : p x = q x := h x (List.mem_cons_self x t) hxa
        have iht := ih a hndt hat
          (fun y hy hne => h y (List.mem_cons_of_mem x hy) hne)
        rw [List.countP_cons, List.countP_cons, hpx]
        by_cases hq : q x = true <;> simp [hq] <;> omega

theorem discCount_setCell {board : List Cell} {mv : Int} (hmv : mv ∈ squares)
    (hlen : board.length = 100) (c' c : Cell) :
    discCount c (setCell board mv c')
        + (if decide (cell board mv = c) then 1 else 0)
      = discCount c board + (if decide (c' = c) then 1 else 0) := by
  have hnd : squares.Nodup := by decide
  have hb := mem_squares_bounds mv hmv
  have h0 : (0 : Int) ≤ mv := by omega
  have hlt : mv.toNat < board.length := by omega
  have hself : cell (setCell board mv c') mv = c' := cell_setCell_self h0 hlt
  have key := countP_update
    (fun x => decide (cell (setCell board mv c') x = c))
    (fun x => decide (cell board x = c)) squares mv hnd hmv
    (fun x _ hne => by
      show decide (cell (setCell board mv c') x = c)
        = decide (cell board x = c)
      rw [cell_setCell_ne x hne])
  unfold discCount
  simpa [hself] using key

theorem is_legal_facts {mv : Int} {P : Cell} {board : List Cell}
    (h : is_legal mv P board = true) :
    mv ∈ squares ∧ cell board mv = Cell.empty ∧
      ∃ d ∈ DIRECTIONS, (find_bracket mv P board d).isSome = true := by
  unfold is_legal at h
  by_cases hv : is_valid mv = true
  · by_cases he : decide (cell board mv = Cell.empty) = true
    · rw [if_neg (by simp [hv, he])] at h
      refine ⟨of_decide_eq_true hv, of_decide_eq_true he, ?_⟩
      simpa [List.any_eq_true] using h
    · rw [if_pos (by simp [he])] at h
      exact absurd h (by simp)
  · rw [if_pos (by simp [hv])] at h
    exact absurd h (by simp)

theorem WF_setCell {b : List Cell} (hWF : WF b) {mv : Int}
    (hmv : mv ∈ squares) {c : Cell}
    (hc : c = Cell.empty ∨ c = Cell.black ∨ c = Cell.white) :
    WF (setCell b mv c) := by
  obtain ⟨hlen, hcells⟩ := hWF
  have hb := mem_squares_bounds mv hmv
  refine ⟨by rw [setCell_length]; exact hlen, ?_⟩
  intro i hi
  by_cases hieq : (i : Int) = mv
  · have hval : is_valid (i : Int) = true := by
      unfold is_valid; rw [hieq]; exact decide_eq_true hmv
    rw [if_pos hval, hieq, cell_setCell_self (by omega) (by omega)]
    exact hc
  · rw [cell_setCell_ne _ hieq]
    exact hcells i hi

theorem WF_flips {player : Cell}
    (hp : player = Cell.black ∨ player = Cell.white) {b b2 : List Cell}
    (hWF : WF b) (hF : Flips player b b2) (hlen2 : b2.length = 100) :
    WF b2 := by
  obtain ⟨hlen, hcells⟩ := hWF
  refine ⟨hlen2, ?_⟩
  intro i hi
  have hc := hcells i hi
  rcases hF (i : Int) with hx | ⟨hxo, hxp⟩
  · rw [hx]; exact hc
  · have hno : cell b (i : Int) ≠ Cell.outer := by
      rw [hxo]; exact opponent_ne_outer player
    have hmem : (i : Int) ∈ squares :=
      cell_not_outer_mem_squares ⟨hlen, hcells⟩ hno
    have hval : is_valid (i : Int) = true := decide_eq_true hmem
    rw [if_pos hval] at hc ⊢
    rw [hxp]
    rcases hp with h | h <;> rw [h] <;> simp

/-- C6: the sentinel invariant -- every non-play cell holds OUTER and every
one of the 64 play squares holds exactly one of EMPTY, BLACK, WHITE -- holds
for `initial_board` and is preserved by `make_move` for every pass or legal
move; in particular OUTER (non-play) cells are never overwritten. -/
theorem make_move_preserves_WF :
    WF initial_board ∧
    ∀ (board : List Cell) (P : Cell) (m : Option Int),
      WF board → (P = Cell.black ∨ P = Cell.white) →
      (m = none ∨ ∃ mv, m = some mv ∧ is_legal mv P board = true) →
      WF (make_move m P board) ∧
      ∀ i : Int, i ∉ squares →
        cell (make_move m P board) i = cell board i := by
  refine ⟨by decide, ?_⟩
  intro board P m hWF hP hm
  rcases hm with rfl | ⟨mv, rfl, hleg⟩
  · exact ⟨hWF, fun i _ => rfl⟩
  · obtain ⟨hmv, hemp, -⟩ := is_legal_facts hleg
    have hb0 : WF (setCell board mv P) := WF_setCell hWF hmv (Or.inr hP)
    have hF := make_move_some_flips P mv board
    have hlenM : (make_move (some mv) P board).length = 100 := by
      rw [make_move_length]; exact hWF.1
    constructor
    · exact WF_flips hP hb0 hF hlenM
    · intro i hi
      rcases hF i with hx | ⟨hxo, _⟩
      · rw [hx]
        exact cell_setCell_ne _ (fun he => hi (he ▸ hmv))
      · exfalso
        have hno : cell (setCell board mv P) i ≠ Cell.outer := by
          rw [hxo]; exact opponent_ne_outer P
        exact hi (cell_not_outer_mem_squares hb0 hno)

/-- C6 witness: the invariant is preserved by the legal opening move 34 of
BLACK on the initial board. -/
theorem make_move_preserves_WF_witness :
    WF (make_move (some 34) Cell.black initial_board) :=
  (make_move_preserves_WF.2 initial_board Cell.black (some 34) (by decide)
    (Or.inl rfl) (Or.inr ⟨34, rfl, by decide⟩)).1

/-- C5: applying a legal move `mv` of player `P` to a well-formed board
strictly increases `P`'s disc count over the play squares, does not increase
the opponent's disc count, and raises the total disc count (BLACK plus WHITE
over play squares) by exactly one. -/
theorem make_move_counts (board : List Cell) (P : Cell) (mv : Int)
    (hWF : WF board) (hP : P = Cell.black ∨ P = Cell.white)
    (hleg : is_legal mv P board = true) :
    discCount P board < discCount P (make_move (some mv) P board) ∧
    discCount (opponent P) (make_move (some mv) P board)
      ≤ discCount (opponent P) board ∧
    discCount Cell.black (make_move (some mv) P board)
      + discCount Cell.white (make_move (some mv) P board)
      = discCount Cell.black board + discCount Cell.white board + 1 := by
  obtain ⟨hmv, hemp, -⟩ := is_legal_facts hleg
  have hlen := hWF.1
  rcases hP with h | h <;> subst h
  · have ho : opponent Cell.black = Cell.white := rfl
    have hF := make_move_some_flips Cell.black mv board
    obtain ⟨hup, hdown, hsum⟩ := flips_discCounts (Or.inl rfl) hF
    rw [ho] at hdown hsum
    have h1 := discCount_setCell hmv hlen Cell.black Cell.black
    have h2 := discCount_setCell hmv hlen Cell.black Cell.white
    rw [hemp] at h1 h2
    simp at h1 h2
    rw [ho]
    omega
  · have ho : opponent Cell.white = Cell.black := rfl
    have hF := make_move_some_flips Cell.white mv board
    obtain ⟨hup, hdown, hsum⟩ := flips_discCounts (Or.inr rfl) hF
    rw [ho] at hdown hsum
    have h1 := discCount_setCell hmv hlen Cell.white Cell.white
    have h2 := discCount_setCell hmv hlen Cell.white Cell.black
    rw [hemp] at h1 h2
    simp at h1 h2
    rw [ho]
    omega

/-- C5 witness: BLACK's legal opening move 34 on the initial board. -/
theorem make_move_counts_witness :
    discCount Cell.black initial_board
      < discCount Cell.black (make_move (some 34) Cell.black initial_board) ∧
    discCount (opponent Cell.black)
        (make_move (some 34) Cell.black initial_board)
      ≤ discCount (opponent Cell.black) initial_board ∧
    discCount Cell.black (make_move (some 34) Cell.black initial_board)
      + discCount Cell.white (make_move (some 34) Cell.black initial_board)
      = discCount Cell.black initial_board
        + discCount Cell.white initial_board + 1 :=
  make_move_counts initial_board Cell.black 34 (by decide) (Or.inl rfl)
    (by decide)

/-! ### Minimax: unfolding equations and value bounds (claims C2 and C8) -/

theorem minimax_zero (board : List Cell) (p rp : Cell) :
    minimax board p 0 rp = (evaluate board rp, none) := by
  rw [minimax]

theorem minimax_succ_terminal (board : List Cell) (p rp : Cell) (d : Nat)
    (hterm : terminal board = true) :
    minimax board p (d + 1) rp = (evaluate board rp, none) := by
  rw [minimax, if_pos hterm]

theorem minimax_succ_pass (board : List Cell) (p rp : Cell) (d : Nat)
    (hterm : terminal board = false) (hmv : legal_moves p board = []) :
    minimax board p (d + 1) rp =
      (match next_player p (make_move none p board) with
        | none => (evaluate (make_move none p board) rp, none)
        | some nxt =>
            ((minimax (make_move none p board) nxt d rp).1, none)) := by
  rw [minimax, if_neg (by simp [hterm])]
  simp only [if_pos hmv]

theorem minimax_succ_moves (board : List Cell) (p rp : Cell) (d : Nat)
    (hterm : terminal board = false) (hmv : legal_moves p board ≠ []) :
    minimax board p (d + 1) rp =
      ((tieFold (moveVal board p d rp) (p == rp)
          (sortCornersFirst (legal_moves p board))).1,
        some (tieFold (moveVal board p d rp) (p == rp)
          (sortCornersFirst (legal_moves p board))).2) := by
  rw [minimax, if_neg (by simp [hterm])]
  simp only [if_neg hmv]
  rfl

theorem next_player_mem {p : Cell} {b : List Cell} {q : Cell}
    (h : next_player p b = some q) : q = opponent p ∨ q = p := by
  have h2 : (if any_legal_move (opponent p) b then some (opponent p)
      else if any_legal_move p b then some p else none) = some q := h
  split_ifs at h2 with ha hb
  · exact Or.inl (Option.some.inj h2).symm
  · exact Or.inr (Option.some.inj h2).symm

theorem next_player_black_or_white {p : Cell} {b : List Cell} {q : Cell}
    (hp : p = Cell.black ∨ p = Cell.white)
    (h : next_player p b = some q) :
    q = Cell.black ∨ q = Cell.white := by
  rcases next_player_mem h with hq | hq
  · rw [hq]; exact opponent_black_or_white p
  · rw [hq]; exact hp

theorem corner_score_abs_le (board : List Cell) (rp : Cell) :
    |corner_score board rp| ≤ 4 := by
  rw [corner_score_eq_counts, abs_le]
  have h1 := List.countP_le_length
    (fun c => decide (cell board c = rp)) (l := CORNERS)
  have h2 := List.countP_le_length
    (fun c => decide (cell board c = opponent rp)) (l := CORNERS)
  have hlen : CORNERS.length = 4 := rfl
  omega

theorem legal_moves_length_le (p : Cell) (board : List Cell) :
    (legal_moves p board).length ≤ 64 := by
  have h := List.length_filter_le
    (fun sq => is_legal sq p board) squares
  have hs : squares.length = 64 := by decide
  unfold legal_moves
  omega

theorem score_abs_le (board : List Cell) (p : Cell)
    (hlen : board.length = 100) : |score p board| ≤ 100 := by
  rw [score_eq_counts, abs_le]
  have h1 := List.countP_le_length (fun s => decide (s = p)) (l := board)
  have h2 := List.countP_le_length (fun s => decide (s = opponent p))
    (l := board)
  omega

theorem x_diff_abs_le (board : List Cell) (rp : Cell) :
    |x_diff board rp| ≤ 4 := by
  unfold x_diff
  rw [abs_le]
  have h1 := List.countP_le_length
    (fun x => decide (cell board x = rp)) (l := X_SQUARES)
  have h2 := List.countP_le_length
    (fun x => decide (cell board x = opponent rp)) (l := X_SQUARES)
  have hlen : X_SQUARES.length = 4 := rfl
  omega

theorem c_diff_abs_le (board : List Cell) (rp : Cell) :
    |c_diff board rp| ≤ 8 := by
  unfold c_diff
  rw [abs_le]
  have h1 := List.countP_le_length
    (fun c => decide (cell board c = rp)) (l := C_SQUARES)
  have h2 := List.countP_le_length
    (fun c => decide (cell board c = opponent rp)) (l := C_SQUARES)
  have hlen : C_SQUARES.length = 8 := rfl
  omega

theorem evaluate_abs_le (board : List Cell) (rp : Cell) (hWF : WF board) :
    |evaluate board rp| ≤ 552 := by
  have h1 := abs_le.mp (corner_score_abs_le board rp)
  have h2 := legal_moves_length_le rp board
  have h3 := legal_moves_length_le (opponent rp) board
  have h4 := abs_le.mp (score_abs_le board rp hWF.1)
  have h5 := abs_le.mp (x_diff_abs_le board rp)
  have h6 := abs_le.mp (c_diff_abs_le board rp)
  unfold evaluate mobility
  rw [abs_le]
  omega

theorem tieFold_true_eq (f : Int → Int) (l : List Int) :
    tieFold f true l = l.foldl (fun acc mv =>
      if f mv > acc.1 ∨ (f mv = acc.1 ∧ mv < acc.2) then (f mv, mv) else acc)
      (-(10 ^ 9 : Int), l.headD 0) := rfl

theorem tieFold_false_eq (f : Int → Int) (l : List Int) :
    tieFold f false l = l.foldl (fun acc mv =>
      if f mv < acc.1 ∨ (f mv = acc.1 ∧ mv < acc.2) then (f mv, mv) else acc)
      ((10 ^ 9 : Int), l.headD 0) := rfl

/-- Specification of the result of the maximizing best-tracking loop over a
move list `l` whose values are given by `f`: the returned move is in `l`,
carries the returned value, the value is an upper bound of all values, and
the move is the smallest index achieving it. -/
def GoodMax (f : Int → Int) (l : List Int) (r : Int × Int) : Prop :=
  r.2 ∈ l ∧ f r.2 = r.1 ∧ (∀ x ∈ l, f x ≤ r.1) ∧
    (∀ x ∈ l, f x = r.1 → r.2 ≤ x)

/-- Mirror of `GoodMax` for the minimizing loop. -/
def GoodMin (f : Int → Int) (l : List Int) (r : Int × Int) : Prop :=
  r.2 ∈ l ∧ f r.2 = r.1 ∧ (∀ x ∈ l, r.1 ≤ f x) ∧
    (∀ x ∈ l, f x = r.1 → r.2 ≤ x)

theorem foldMax_invariant (f : Int → Int) :
    ∀ (rest seen : List Int) (acc : Int × Int), GoodMax f seen acc →
      GoodMax f (seen ++ rest) (rest.foldl (fun a mv =>
        if f mv > a.1 ∨ (f mv = a.1 ∧ mv < a.2) then (f mv, mv) else a)
        acc) := by
  intro rest
  induction rest with
  | nil => intro seen acc h; simpa using h
  | cons mv rest ih =>
      intro seen acc hg
      obtain ⟨hmem, hval, hub, htie⟩ := hg
      rw [List.foldl_cons]
      have key : GoodMax f (seen ++ [mv])
          (if f mv > acc.1 ∨ (f mv = acc.1 ∧ mv < acc.2) then (f mv, mv)
            else acc) := by
        by_cases hc : f mv > acc.1 ∨ (f mv = acc.1 ∧ mv < acc.2)
        · rw [if_pos hc]
          refine ⟨by simp, rfl, ?_, ?_⟩
          · intro x hx
            rcases List.mem_append.mp hx with hx | hx
            · rcases hc with hgt | ⟨heq, _⟩
              · have := hub x hx; omega
              · have := hub x hx; omega
            · rw [List.mem_singleton] at hx; subst hx; exact le_rfl
          · intro x hx hfx
            rcases List.mem_append.mp hx with hx | hx
            · rcases hc with hgt | ⟨heq, hlt⟩
              · have := hub x hx; omega
              · have := htie x hx (by omega); omega
            · rw [List.mem_singleton] at hx; subst hx; exact le_rfl
        · rw [if_neg hc]
          push_neg at hc
          obtain ⟨hle, himp⟩ := hc
          refine ⟨List.mem_append_left _ hmem, hval, ?_, ?_⟩
          · intro x hx
            rcases List.mem_append.mp hx with hx | hx
            · exact hub x hx
            · rw [List.mem_singleton] at hx; subst hx; exact hle
          · intro x hx hfx
            rcases List.mem_append.mp hx with hx | hx
            · exact htie x hx hfx
            · rw [List.mem_singleton] at hx; subst hx; exact himp hfx
      have hres := ih (seen ++ [mv]) _ key
      simpa [List.append_assoc] using hres

theorem foldMin_invariant (f : Int → Int) :
    ∀ (rest seen : List Int) (acc : Int × Int), GoodMin f seen acc →
      GoodMin f (seen ++ rest) (rest.foldl (fun a mv =>
        if f mv < a.1 ∨ (f mv = a.1 ∧ mv < a.2) then (f mv, mv) else a)
        acc) := by
  intro rest
  induction rest with
  | nil => intro seen acc h; simpa using h
  | cons mv rest ih =>
      intro seen acc hg
      obtain ⟨hmem, hval, hub, htie⟩ := hg
      rw [List.foldl_cons]
      have key : GoodMin f (seen ++ [mv])
          (if f mv < acc.1 ∨ (f mv = acc.1 ∧ mv < acc.2) then (f mv, mv)
            else acc) := by
        by_cases hc : f mv < acc.1 ∨ (f mv = acc.1 ∧ mv < acc.2)
        · rw [if_pos hc]
          refine ⟨by simp, rfl, ?_, ?_⟩
          · intro x hx
            rcases List.mem_append.mp hx with hx | hx
            · rcases hc with hgt | ⟨heq, _⟩
              · have := hub x hx; omega
              · have := hub x hx; omega
            · rw [List.mem_singleton] at hx; subst hx; exact le_rfl
          · intro x hx hfx
            rcases List.mem_append.mp hx with hx | hx
            · rcases hc with hgt | ⟨heq, hlt⟩
              · have := hub x hx; omega
              · have := htie x hx (by omega); omega
            · rw [List.mem_singleton] at hx; subst hx; exact le_rfl
        · rw [if_neg hc]
          push_neg at hc
          obtain ⟨hle, himp⟩ := hc
          refine ⟨List.mem_append_left _ hmem, hval, ?_, ?_⟩
          · intro x hx
            rcases List.mem_append.mp hx with hx | hx
            · exact hub x hx
            · rw [List.mem_singleton] at hx; subst hx; exact hle
          · intro x hx hfx
            rcases List.mem_append.mp hx with hx | hx
            · exact htie x hx hfx
            · rw [List.mem_singleton] at hx; subst hx; exact himp hfx
      have hres := ih (seen ++ [mv]) _ key
      simpa [List.append_assoc] using hres

theorem tieFold_max_char (f : Int → Int) (l : List Int) (hne : l ≠ [])
    (hB : ∀ x ∈ l, -(10 ^ 9 : Int) < f x) :
    GoodMax f l (tieFold f true l) := by
  obtain ⟨m, rest, rfl⟩ : ∃ m rest, l = m :: rest := by
    cases l with
    | nil => exact absurd rfl hne
    | cons a t => exact ⟨a, t, rfl⟩
  rw [tieFold_true_eq]
  simp only [List.foldl_cons, List.headD_cons]
  rw [if_pos (Or.inl (hB m (List.mem_cons_self m rest)))]
  have hgood1 : GoodMax f [m] (f m, m) := by
    refine ⟨by simp, rfl, ?_, ?_⟩
    · intro x hx; rw [List.mem_singleton] at hx; subst hx; exact le_rfl
    · intro x hx _; rw [List.mem_singleton] at hx; subst hx; exact le_rfl
  have hres := foldMax_invariant f rest [m] (f m, m) hgood1
  simpa using hres

theorem tieFold_min_char (f : Int → Int) (l : List Int) (hne : l ≠ [])
    (hB : ∀ x ∈ l, f x < (10 ^ 9 : Int)) :
    GoodMin f l (tieFold f false l) := by
  obtain ⟨m, rest, rfl⟩ : ∃ m rest, l = m :: rest := by
    cases l with
    | nil => exact absurd rfl hne
    | cons a t => exact ⟨a, t, rfl⟩
  rw [tieFold_false_eq]
  simp only [List.foldl_cons, List.headD_cons]
  rw [if_pos (Or.inl (hB m (List.mem_cons_self m rest)))]
  have hgood1 : GoodMin f [m] (f m, m) := by
    refine ⟨by simp, rfl, ?_, ?_⟩
    · intro x hx; rw [List.mem_singleton] at hx; subst hx; exact le_rfl
    · intro x hx _; rw [List.mem_singleton] at hx; subst hx; exact le_rfl
  have hres := foldMin_invariant f rest [m] (f m, m) hgood1
  simpa using hres

theorem goodMax_unique {f : Int → Int} {l l2 : List Int}
    (hiff : ∀ x : Int, x ∈ l ↔ x ∈ l2) {r r2 : Int × Int}
    (h1 : GoodMax f l r) (h2 : GoodMax f l2 r2) : r = r2 := by
  obtain ⟨hm1, hv1, hub1, ht1⟩ := h1
  obtain ⟨hm2, hv2, hub2, ht2⟩ := h2
  have hval : r.1 = r2.1 := le_antisymm
    (by rw [← hv1]; exact hub2 r.2 ((hiff r.2).mp hm1))
    (by rw [← hv2]; exact hub1 r2.2 ((hiff r2.2).mpr hm2))
  have hmv : r.2 = r2.2 := le_antisymm
    (ht1 r2.2 ((hiff r2.2).mpr hm2) (by rw [hv2, hval]))
    (ht2 r.2 ((hiff r.2).mp hm1) (by rw [hv1, ← hval]))
  exact Prod.ext hval hmv

theorem goodMin_unique {f : Int → Int} {l l2 : List Int}
    (hiff : ∀ x : Int, x ∈ l ↔ x ∈ l2) {r r2 : Int × Int}
    (h1 : GoodMin f l r) (h2 : GoodMin f l2 r2) : r = r2 := by
  obtain ⟨hm1, hv1, hub1, ht1⟩ := h1
  obtain ⟨hm2, hv2, hub2, ht2⟩ := h2
  have hval : r.1 = r2.1 := le_antisymm
    (by rw [← hv2]; exact hub1 r2.2 ((hiff r2.2).mpr hm2))
    (by rw [← hv1]; exact hub2 r.2 ((hiff r.2).mp hm1))
  have hmv : r.2 = r2.2 := le_antisymm
    (ht1 r2.2 ((hiff r2.2).mpr hm2) (by rw [hv2, hval]))
    (ht2 r.2 ((hiff r.2).mp hm1) (by rw [hv1, ← hval]))
  exact Prod.ext hval hmv

theorem sortCornersFirst_perm (l : List Int) : (sortCornersFirst l).Perm l :=
  List.filter_append_perm _ l

theorem make_move_legal_WF {board : List Cell} {P : Cell} {mv : Int}
    (hWF : WF board) (hP : P = Cell.black ∨ P = Cell.white)
    (hmv : mv ∈ legal_moves P board) :
    WF (make_move (some mv) P board) :=
  (make_move_preserves_WF.2 board P (some mv) hWF hP
    (Or.inr ⟨mv, rfl, (List.mem_filter.mp hmv).2⟩)).1

theorem minimax_abs_le :
    ∀ (d : Nat) (b : List Cell) (p rp : Cell), WF b →
      (p = Cell.black ∨ p = Cell.white) →
      |(minimax b p d rp).1| ≤ 552 := by
  intro d
  induction d with
  | zero =>
      intro b p rp hWF _
      rw [minimax_zero]
      exact evaluate_abs_le b rp hWF
  | succ d ih =>
      intro b p rp hWF hp
      cases hterm : terminal b with
      | true =>
          rw [minimax_succ_terminal b p rp d hterm]
          exact evaluate_abs_le b rp hWF
      | false =>
          by_cases hmv : legal_moves p b = []
          · rw [minimax_succ_pass b p rp d hterm hmv]
            cases hnp : next_player p (make_move none p b) with
            | none => exact evaluate_abs_le _ rp hWF
            | some nxt =>
                exact ih _ nxt rp hWF (next_player_black_or_white hp hnp)
          · rw [minimax_succ_moves b p rp d hterm hmv]
            have hBall : ∀ x ∈ sortCornersFirst (legal_moves p b),
                |moveVal b p d rp x| ≤ 552 := by
              intro x hx
              have hxm : x ∈ legal_moves p b :=
                (sortCornersFirst_perm (legal_moves p b)).mem_iff.mp hx
              have hWFc := make_move_legal_WF hWF hp hxm
              simp only [moveVal, childVal]
              cases hnp : next_player p (make_move (some x) p b) with
              | none => exact evaluate_abs_le _ rp hWFc
              | some nxt =>
                  exact ih _ nxt rp hWFc
                    (next_player_black_or_white hp hnp)
            have hne2 : sortCornersFirst (legal_moves p b) ≠ [] := by
              intro he
              have hl := (sortCornersFirst_perm (legal_moves p b)).length_eq
              rw [he] at hl
              exact hmv (List.length_eq_zero.mp hl.symm)
            cases hbeq : (p == rp) with
            | false =>
                obtain ⟨hm, hv, _, _⟩ := tieFold_min_char (moveVal b p d rp)
                  (sortCornersFirst (legal_moves p b)) hne2
                  (fun x hx => by have := abs_le.mp (hBall x hx); omega)
                show |(tieFold (moveVal b p d rp) false
                  (sortCornersFirst (legal_moves p b))).1| ≤ 552
                rw [← hv]
                exact hBall _ hm
            | true =>
                obtain ⟨hm, hv, _, _⟩ := tieFold_max_char (moveVal b p d rp)
                  (sortCornersFirst (legal_moves p b)) hne2
                  (fun x hx => by have := abs_le.mp (hBall x hx); omega)
                show |(tieFold (moveVal b p d rp) true
                  (sortCornersFirst (legal_moves p b))).1| ≤ 552
                rw [← hv]
                exact hBall _ hm

theorem moveVal_abs_le {board : List Cell} {ptm : Cell} (rp : Cell) (d : Nat)
    {mv : Int} (hWF : WF board) (hptm : ptm = Cell.black ∨ ptm = Cell.white)
    (hmv : mv ∈ legal_moves ptm board) :
    |moveVal board ptm d rp mv| ≤ 552 := by
  have hWFc := make_move_legal_WF hWF hptm hmv
  simp only [moveVal, childVal]
  cases hnp : next_player ptm (make_move (some mv) ptm board) with
  | none => exact evaluate_abs_le _ rp hWFc
  | some nxt =>
      exact minimax_abs_le d _ nxt rp hWFc
        (next_player_black_or_white hptm hnp)

/-- C2: whenever the player to move has at least two distinct legal moves
whose recursive values are equal and optimal, `minimax` returns that
optimal value together with the smallest-index move among all optimal
moves, and the returned `(value, move)` pair does not depend on the order
in which the legal moves are fed to the best-tracking loop: folding the
loop over ANY permutation of the legal-move list yields the same pair — in
particular the corners-first re-sort performed by the source has no effect
on the result. -/
theorem minimax_tiebreak (board : List Cell) (ptm rp : Cell) (d : Nat)
    (hWF : WF board) (hptm : ptm = Cell.black ∨ ptm = Cell.white)
    (hterm : terminal board = false) (m1 m2 : Int)
    (h1 : m1 ∈ legal_moves ptm board) (h2 : m2 ∈ legal_moves ptm board)
    (hne : m1 ≠ m2)
    (heq : moveVal board ptm d rp m1 = moveVal board ptm d rp m2)
    (hopt : ∀ mv ∈ legal_moves ptm board,
      if ptm = rp then moveVal board ptm d rp mv ≤ moveVal board ptm d rp m1
      else moveVal board ptm d rp m1 ≤ moveVal board ptm d rp mv) :
    (minimax board ptm (d + 1) rp).1 = moveVal board ptm d rp m1 ∧
    (∃ mstar,
      (minimax board ptm (d + 1) rp).2 = some mstar ∧
      mstar ∈ legal_moves ptm board ∧
      moveVal board ptm d rp mstar = moveVal board ptm d rp m1 ∧
      mstar ≤ m1 ∧ mstar ≤ m2 ∧
      (∀ mv ∈ legal_moves ptm board,
        moveVal board ptm d rp mv = moveVal board ptm d rp m1 →
          mstar ≤ mv)) ∧
    (∀ l : List Int, l ≠ [] → l.Perm (legal_moves ptm board) →
      ((tieFold (moveVal board ptm d rp) (ptm == rp) l).1,
        some (tieFold (moveVal board ptm d rp) (ptm == rp) l).2)
        = minimax board ptm (d + 1) rp) := by
  have hmoves : legal_moves ptm board ≠ [] := List.ne_nil_of_mem h1
  have hperm2 := sortCornersFirst_perm (legal_moves ptm board)
  have hne2 : sortCornersFirst (legal_moves ptm board) ≠ [] := by
    intro he
    have hl := hperm2.length_eq
    rw [he] at hl
    exact hmoves (List.length_eq_zero.mp hl.symm)
  have hBmv : ∀ x ∈ legal_moves ptm board,
      |moveVal board ptm d rp x| ≤ 552 :=
    fun x hx => moveVal_abs_le rp d hWF hptm hx
  rw [minimax_succ_moves board ptm rp d hterm hmoves]
  by_cases hmx : ptm = rp
  · have hbeq : (ptm == rp) = true := by rw [hmx]; exact beq_self_eq_true rp
    rw [hbeq]
    have hchar2 := tieFold_max_char (moveVal board ptm d rp)
      (sortCornersFirst (legal_moves ptm board)) hne2
      (fun x hx => by
        have := abs_le.mp (hBmv x (hperm2.mem_iff.mp hx)); omega)
    obtain ⟨hm2b, hv2, hub2, ht2⟩ := hchar2
    have hchar2' : GoodMax (moveVal board ptm d rp)
        (sortCornersFirst (legal_moves ptm board))
        (tieFold (moveVal board ptm d rp) true
          (sortCornersFirst (legal_moves ptm board))) :=
      ⟨hm2b, hv2, hub2, ht2⟩
    have hvm1 : (tieFold (moveVal board ptm d rp) true
        (sortCornersFirst (legal_moves ptm board))).1
        = moveVal board ptm d rp m1 := by
      apply le_antisymm
      · rw [← hv2]
        have hoptr := hopt _ (hperm2.mem_iff.mp hm2b)
        rw [if_pos hmx] at hoptr
        exact hoptr
      · exact hub2 m1 (hperm2.mem_iff.mpr h1)
    refine ⟨hvm1, ?_, ?_⟩
    · refine ⟨(tieFold (moveVal board ptm d rp) true
        (sortCornersFirst (legal_moves ptm board))).2, rfl,
        hperm2.mem_iff.mp hm2b, by rw [hv2, hvm1], ?_, ?_, ?_⟩
      · exact ht2 m1 (hperm2.mem_iff.mpr h1) (by rw [hvm1])
      · exact ht2 m2 (hperm2.mem_iff.mpr h2)
          (by rw [hvm1, heq])
      · intro mv hmvm hfmv
        exact ht2 mv (hperm2.mem_iff.mpr hmvm) (hfmv.trans hvm1.symm)
    · intro l hlne hlperm
      have hcharl := tieFold_max_char (moveVal board ptm d rp) l hlne
        (fun x hx => by
          have := abs_le.mp (hBmv x (hlperm.mem_iff.mp hx)); omega)
      have hiff : ∀ x : Int, x ∈ l ↔
          x ∈ sortCornersFirst (legal_moves ptm board) :=
        fun x => (hlperm.mem_iff).trans (hperm2.mem_iff).symm
      have hequ := goodMax_unique hiff hcharl hchar2'
      rw [hequ]
  · have hbeq : (ptm == rp) = false := beq_eq_false_iff_ne.mpr hmx
    rw [hbeq]
    have hchar2 := tieFold_min_char (moveVal board ptm d rp)
      (sortCornersFirst (legal_moves ptm board)) hne2
      (fun x hx => by
        have := abs_le.mp (hBmv x (hperm2.mem_iff.mp hx)); omega)
    obtain ⟨hm2b, hv2, hub2, ht2⟩ := hchar2
    have hchar2' : GoodMin (moveVal board ptm d rp)
        (sortCornersFirst (legal_moves ptm board))
        (tieFold (moveVal board ptm d rp) false
          (sortCornersFirst (legal_moves ptm board))) :=
      ⟨hm2b, hv2, hub2, ht2⟩
    have hvm1 : (tieFold (moveVal board ptm d rp) false
        (sortCornersFirst (legal_moves ptm board))).1
        = moveVal board ptm d rp m1 := by
      apply le_antisymm
      · exact hub2 m1 (hperm2.mem_iff.mpr h1)
      · rw [← hv2]
        have hoptr := hopt _ (hperm2.mem_iff.mp hm2b)
        rw [if_neg hmx] at hoptr
        exact hoptr
    refine ⟨hvm1, ?_, ?_⟩
    · refine ⟨(tieFold (moveVal board ptm d rp) false
        (sortCornersFirst (legal_moves ptm board))).2, rfl,
        hperm2.mem_iff.mp hm2b, by rw [hv2, hvm1], ?_, ?_, ?_⟩
      · exact ht2 m1 (hperm2.mem_iff.mpr h1) (by rw [hvm1])
      · exact ht2 m2 (hperm2.mem_iff.mpr h2)
          (by rw [hvm1, heq])
      · intro mv hmvm hfmv
        exact ht2 mv (hperm2.mem_iff.mpr hmvm) (hfmv.trans hvm1.symm)
    · intro l hlne hlperm
      have hcharl := tieFold_min_char (moveVal board ptm d rp) l hlne
        (fun x hx => by
          have := abs_le.mp (hBmv x (hlperm.mem_iff.mp hx)); omega)
      have hiff : ∀ x : Int, x ∈ l ↔
          x ∈ sortCornersFirst (legal_moves ptm board) :=
        fun x => (hlperm.mem_iff).trans (hperm2.mem_iff).symm
      have hequ := goodMin_unique hiff hcharl hchar2'
      rw [hequ]

set_option maxRecDepth 100000 in
/-- C2 witness: from the initial board at depth 1 for BLACK as root, moves
34 and 43 are distinct, tied and optimal, and the theorem applies. -/
theorem minimax_tiebreak_witness :
    (minimax initial_board Cell.black 1 Cell.black).1
      = moveVal initial_board Cell.black 0 Cell.black 34 :=
  (minimax_tiebreak initial_board Cell.black Cell.black 0 (by decide)
    (Or.inl rfl) (by decide) 34 43 (by decide) (by decide) (by decide)
    (by decide) (by decide)).1

/-! ### Claim C8: minimax recursion is bounded by the depth argument -/

/-- Collect the results of an `Option`-valued function over a list,
failing if any element fails. -/
def optMap (g : Int → Option Int) : List Int → Option (List Int)
  | [] => some []
  | x :: xs =>
      match g x, optMap g xs with
      | some v, some vs => some (v :: vs)
      | _, _ => none

/-- The best-tracking loop of `minimax` operating on precomputed
`(move, value)` pairs; extensionally the same loop as `tieFold`. -/
def tieFoldPairs (maximizing : Bool) (pairs : List (Int × Int)) :
    Int × Int :=
  pairs.foldl (fun acc p =>
    if maximizing then
      if p.2 > acc.1 ∨ (p.2 = acc.1 ∧ p.1 < acc.2) then (p.2, p.1) else acc
    else
      if p.2 < acc.1 ∨ (p.2 = acc.1 ∧ p.1 < acc.2) then (p.2, p.1) else acc)
    ((if maximizing then -(10 ^ 9) else (10 ^ 9 : Int)),
      (pairs.map Prod.fst).headD 0)

/-- Fuel-instrumented variant of `minimax`, used to express the
recursion-depth bound of the search: it performs exactly the recursion of
`minimax` but gives up (returns `none`) as soon as the nesting of recursive
invocations exceeds `fuel`.  Claim C8's theorem shows `fuel = depth + 1`
always suffices, because every recursive call decrements `depth`. -/
def minimaxF (fuel : Nat) (board : List Cell) (ptm : Cell) (depth : Nat)
    (rp : Cell) : Option (Int × Option Int) :=
  match fuel with
  | 0 => none
  | Nat.succ f =>
      match depth with
      | 0 => some (evaluate board rp, none)
      | Nat.succ d =>
          if terminal board then some (evaluate board rp, none)
          else
            let moves := legal_moves ptm board
            if moves = [] then
              let child := make_move none ptm board
              match next_player ptm child with
              | none => some (evaluate child rp, none)
              | some nxt => (minimaxF f child nxt d rp).map
                  (fun r => (r.1, none))
            else
              let moves2 := sortCornersFirst moves
              match optMap (fun mv =>
                  match next_player ptm (make_move (some mv) ptm board) with
                  | none =>
                      some (evaluate (make_move (some mv) ptm board) rp)
                  | some nxt =>
                      (minimaxF f (make_move (some mv) ptm board) nxt d
                        rp).map Prod.fst)
                  moves2 with
              | none => none
              | some vals =>
                  let r := tieFoldPairs (ptm == rp) (moves2.zip vals)
                  some (r.1, some r.2)

theorem optMap_some {g : Int → Option Int} {h : Int → Int} :
    ∀ l : List Int, (∀ x ∈ l, g x = some (h x)) →
      optMap g l = some (l.map h) := by
  intro l
  induction l with
  | nil => intro _; rfl
  | cons x t ih =>
      intro hall
      have hx := hall x (List.mem_cons_self x t)
      have ht := ih (fun y hy => hall y (List.mem_cons_of_mem x hy))
      simp [optMap, hx, ht]

theorem tieFoldPairs_map (f : Int → Int) (maximizing : Bool)
    (l : List Int) :
    tieFoldPairs maximizing (l.map (fun mv => (mv, f mv)))
      = tieFold f maximizing l := by
  unfold tieFoldPairs tieFold
  rw [List.foldl_map, List.map_map]
  have hcomp : (Prod.fst ∘ fun mv : Int => (mv, f mv)) = id := rfl
  rw [hcomp, List.map_id]

theorem zip_map_self (f : Int → Int) (l : List Int) :
    l.zip (l.map f) = l.map (fun mv => (mv, f mv)) := by
  induction l with
  | nil => rfl
  | cons x t ih => simp [ih]

theorem minimaxF_succ_moves (f : Nat) (board : List Cell) (ptm rp : Cell)
    (d : Nat) (hterm : terminal board = false)
    (hmv : legal_moves ptm board ≠ []) :
    minimaxF (f + 1) board ptm (d + 1) rp
      = match optMap (fun mv =>
            match next_player ptm (make_move (some mv) ptm board) with
            | none => some (evaluate (make_move (some mv) ptm board) rp)
            | some nxt =>
                (minimaxF f (make_move (some mv) ptm board) nxt d rp).map
                  Prod.fst)
          (sortCornersFirst (legal_moves ptm board)) with
        | none => none
        | some vals =>
            some ((tieFoldPairs (ptm == rp)
                ((sortCornersFirst (legal_moves ptm board)).zip vals)).1,
              some (tieFoldPairs (ptm == rp)
                ((sortCornersFirst (legal_moves ptm board)).zip vals)).2)
    := by
  rw [minimaxF]
  rw [if_neg (by simp [hterm])]
  simp only [if_neg hmv]

/-- C8: `minimax(board, player_to_move, depth, root_player)` terminates for
every board, player, root player, and natural-number depth, with recursion
depth bounded by the `depth` argument: the fuel-instrumented `minimaxF`
already succeeds and returns exactly the `minimax` result whenever
`depth < fuel`, because each recursive call (both the forced-pass call and
the per-move calls) is made with `depth - 1`. -/
theorem minimax_recursion_bounded :
    ∀ (depth fuel : Nat) (board : List Cell) (ptm rp : Cell), depth < fuel →
      minimaxF fuel board ptm depth rp
        = some (minimax board ptm depth rp) := by
  intro depth
  induction depth with
  | zero =>
      intro fuel board ptm rp hlt
      cases fuel with
      | zero => omega
      | succ f => rw [minimax_zero]; rfl
  | succ d ih =>
      intro fuel board ptm rp hlt
      cases fuel with
      | zero => omega
      | succ f =>
          have hd : d < f := by omega
          cases hterm : terminal board with
          | true =>
              rw [minimax_succ_terminal board ptm rp d hterm]
              rw [minimaxF, if_pos hterm]
          | false =>
              by_cases hmv : legal_moves ptm board = []
              · rw [minimax_succ_pass board ptm rp d hterm hmv]
                rw [minimaxF, if_neg (by simp [hterm])]
                simp only [if_pos hmv]
                cases hnp : next_player ptm (make_move none ptm board) with
                | none => rfl
                | some nxt =>
                    simp [ih f (make_move none ptm board) nxt rp hd]
              · rw [minimax_succ_moves board ptm rp d hterm hmv]
                rw [minimaxF_succ_moves f board ptm rp d hterm hmv]
                have hall : ∀ mv ∈ sortCornersFirst (legal_moves ptm board),
                    (match next_player ptm (make_move (some mv) ptm board)
                        with
                      | none =>
                          some (evaluate (make_move (some mv) ptm board) rp)
                      | some nxt =>
                          (minimaxF f (make_move (some mv) ptm board) nxt d
                            rp).map Prod.fst)
                      = some (moveVal board ptm d rp mv) := by
                  intro mv _
                  cases hnp :
                      next_player ptm (make_move (some mv) ptm board) with
                  | none => simp [moveVal, childVal, hnp]
                  | some nxt =>
                      simp [ih f (make_move (some mv) ptm board) nxt rp hd,
                        moveVal, childVal, hnp]
                have hoptm := optMap_some
                  (sortCornersFirst (legal_moves ptm board)) hall
                rw [hoptm]
                simp only [zip_map_self, tieFoldPairs_map]

/-- C8 witness: from the initial board at depth 1, fuel 2 already suffices
and reproduces the `minimax` result. -/
theorem minimax_recursion_bounded_witness :
    minimaxF 2 initial_board Cell.black 1 Cell.black
      = some (minimax initial_board Cell.black 1 Cell.black) :=
  minimax_recursion_bounded 1 2 initial_board Cell.black Cell.black
    (by decide)

/-! ### Claim C10: the smallest-move self-play game -/

set_option maxRecDepth 1000000 in
set_option maxHeartbeats 4000000 in
/-- C10: the game loop started from `initial_board` with BLACK to move, in
which each invoked strategy returns the smallest-index legal move of the
player to move, terminates (reaches a state where `next_player` returns
none, well within the 100-iteration fuel) and the final board's BLACK disc
count plus WHITE disc count equals 64. -/
theorem play_smallest_move_game :
    (play first_move_strategy first_move_strategy).isSome = true ∧
    (play first_move_strategy first_move_strategy).map
      (fun b => discCount Cell.black b + discCount Cell.white b)
      = some 64 := by
  decide
